import Mathlib

/-!
Verification of the phonetic encoders of helper-js
(src/utility/string/metaphone.js and src/utility/string/soundex.js).

Strings are modelled as lists of characters.  JavaScript reads past either
end of a string yield undefined, which the source converts to the empty
string or to a NUL sentinel before any comparison or classification; both
behave identically in every use site (they are not A-Z, they compare
unequal to every letter and classify to bitmask 0), so out-of-range reads
are modelled by the NUL sentinel.  The phase-2 while loop of metaphone is
modelled with an explicit fuel argument; the cursor advances by at least
one per iteration, so fuel equal to the word length is never exhausted
before the loop condition fails (metaLoop_fuel_succ below makes the
fuel-independence precise).
-/

namespace HelperJs

/-- NUL sentinel standing for reads past the boundary of the word. -/
def NUL : Char := Char.ofNat 0

/-- Per-character upper-casing of the ASCII letters a-z (word.toUpperCase). -/
def toUpperChar (c : Char) : Char :=
  if 97 ≤ c.toNat ∧ c.toNat ≤ 122 then Char.ofNat (c.toNat - 32) else c

/-- The test /[A-Z]/ on a single character. -/
def isUpperAZ (c : Char) : Bool := decide (65 ≤ c.toNat ∧ c.toNat ≤ 90)

/-! ### metaphone.js -/

/-- Special encoding emitted for the SH sound (const SH = 'X'). -/
def SH : Char := 'X'

/-- Special encoding emitted for the TH sound (const TH = '0'). -/
def TH : Char := '0'

/-- The character encoding array (const codes), indexed a..z. -/
def codes : List Nat :=
  [1, 16, 4, 16, 9, 2, 4, 16, 9, 2, 0, 2, 2, 2, 1, 4, 0, 2, 4, 4, 1, 0, 0, 0, 8, 0]

/-- encode: bitmask of an upper-case letter, 0 outside A-Z. -/
def encode (c : Char) : Nat :=
  if 65 ≤ c.toNat ∧ c.toNat ≤ 90 then codes.getD (c.toNat - 65) 0 else 0

/-- isVowel: AEIOU (bit 1). -/
def isVowel (c : Char) : Bool := (encode c &&& 1) != 0

/-- noChange: FJMNRL (bit 2). -/
def noChange (c : Char) : Bool := (encode c &&& 2) != 0

/-- affectH: CGPST (bit 4). -/
def affectH (c : Char) : Bool := (encode c &&& 4) != 0

/-- makeSoft: EIY (bit 8). -/
def makeSoft (c : Char) : Bool := (encode c &&& 8) != 0

/-- noGhToF: BDH (bit 16). -/
def noGhToF (c : Char) : Bool := (encode c &&& 16) != 0

/-- lookAhead(word, w_idx, -3): the letter three positions back, NUL when the
index would be negative (word[negative] is undefined in the source). -/
def lookBack3 (w : List Char) (i : Nat) : Char :=
  if 3 ≤ i then w.getD (i - 3) NUL else NUL

/-- prevLetter: w_idx > 0 ? convertRaw(word[w_idx - 1]) : a NUL sentinel. -/
def prevLetter (w : List Char) (i : Nat) : Char :=
  if 0 < i then w.getD (i - 1) NUL else NUL

/-- phonize: append one character to the result unless the buffer cap
maxBufferLen is already reached. -/
def phonize (maxBuf : Nat) (acc : List Char) (c : Char) : List Char :=
  if acc.length < maxBuf then acc ++ [c] else acc

/-- phonize applied to each character of a list in order (the branches of the
switch call phonize up to twice). -/
def phonizeList (maxBuf : Nat) (acc : List Char) (cs : List Char) : List Char :=
  cs.foldl (phonize maxBuf) acc

/-- Phase 1: the first-letter special cases (the switch on the first
alphabetic character).  Given the upper-cased word and the index s of its
first A-Z character, returns the characters passed to phonize and the
cursor position at which phase 2 starts. -/
def metaFirst (w : List Char) (s : Nat) : List Char × Nat :=
  let curr := w.getD s NUL
  if curr = 'A' then
    if w.getD (s + 1) NUL = 'E' then (['E'], s + 2) else (['A'], s + 1)
  else if curr = 'G' ∨ curr = 'K' ∨ curr = 'P' then
    if w.getD (s + 1) NUL = 'N' then (['N'], s + 2) else ([], s)
  else if curr = 'W' then
    if w.getD (s + 1) NUL = 'R' then (['R'], s + 2)
    else if w.getD (s + 1) NUL = 'H' ∨ isVowel (w.getD (s + 1) NUL) then
      (['W'], s + 2)
    else ([], s)
  else if curr = 'X' then (['S'], s + 1)
  else if curr = 'E' ∨ curr = 'I' ∨ curr = 'O' ∨ curr = 'U' then ([curr], s + 1)
  else ([], s)

/-- Case B of the phase-2 switch: B is silent after M. -/
def metaB (prev : Char) : List Char × Nat :=
  (if prev ≠ 'M' then ['B'] else [], 0)

/-- Case C of the phase-2 switch (soft C, the CH digraph, hard C). -/
def metaC (prev next afterNext : Char) : List Char × Nat :=
  if makeSoft next then
    (if next = 'I' ∧ afterNext = 'A' then [SH]
     else if prev ≠ 'S' then ['S'] else [], 0)
  else if next = 'H' then
    (if ¬ noGhToF prev ∨ afterNext = 'R' then ['K'] else [SH], 1)
  else (['K'], 0)

/-- Case D of the phase-2 switch (DG before a soft letter, else T). -/
def metaD (next afterNext : Char) : List Char × Nat :=
  if next = 'G' ∧ makeSoft afterNext then (['J'], 1) else (['T'], 0)

/-- Case G of the phase-2 switch (GH to F, soft G, hard G). -/
def metaG (next back3 : Char) : List Char × Nat :=
  if next = 'H' ∧ ¬ noGhToF back3 then (['F'], 1)
  else if next ≠ 'N' ∧ makeSoft next then (['J'], 0)
  else (['K'], 0)

/-- Case H of the phase-2 switch. -/
def metaH (prev next : Char) : List Char × Nat :=
  (if isVowel next ∧ ¬ affectH prev then ['H'] else [], 0)

/-- Case K of the phase-2 switch: K is silent after C. -/
def metaK (prev : Char) : List Char × Nat :=
  (if prev ≠ 'C' then ['K'] else [], 0)

/-- Case P of the phase-2 switch: PH sounds F. -/
def metaP (next : Char) : List Char × Nat :=
  (if next = 'H' then ['F'] else ['P'], 0)

/-- Case S of the phase-2 switch (SH and SIA/SIO digraphs). -/
def metaS (next afterNext : Char) : List Char × Nat :=
  if next = 'H' ∨ (next = 'I' ∧ (afterNext = 'A' ∨ afterNext = 'O')) then
    ([SH], 1)
  else (['S'], 0)

/-- Case T of the phase-2 switch (TH digraph, TIA/TIO). -/
def metaT (next afterNext : Char) : List Char × Nat :=
  if next = 'H' then ([TH], 1)
  else if next = 'I' ∧ (afterNext = 'A' ∨ afterNext = 'O') then ([SH], 0)
  else (['T'], 0)

/-- Case W of the phase-2 switch. -/
def metaW (next : Char) : List Char × Nat :=
  (if isVowel next then ['W'] else [], 0)

/-- Case Y of the phase-2 switch. -/
def metaY (next : Char) : List Char × Nat :=
  (if isVowel next then ['Y'] else [], 0)

/-- Default case of the phase-2 switch: the no-change consonants pass
through, everything else emits nothing. -/
def metaDefault (curr : Char) : List Char × Nat :=
  (if noChange curr then [curr] else [], 0)

/-- The phase-2 switch over the current letter and its context: prev is
prevLetter, next the letter after, afterNext the letter two ahead, back3
the letter three back (lookAhead -3).  Returns the characters passed to
phonize and the number of extra cursor increments performed inside the
branch. -/
def metaSwitch (curr prev next afterNext back3 : Char) : List Char × Nat :=
  if curr = 'B' then metaB prev
  else if curr = 'C' then metaC prev next afterNext
  else if curr = 'D' then metaD next afterNext
  else if curr = 'G' then metaG next back3
  else if curr = 'H' then metaH prev next
  else if curr = 'K' then metaK prev
  else if curr = 'P' then metaP next
  else if curr = 'S' then metaS next afterNext
  else if curr = 'T' then metaT next afterNext
  else if curr = 'W' then metaW next
  else if curr = 'X' then (['K', 'S'], 0)
  else if curr = 'Y' then metaY next
  else if curr = 'Z' then (['S'], 0)
  else metaDefault curr

/-- One iteration of the phase-2 loop body at cursor i: skip a non-alphabetic
character, otherwise run the switch on the current letter with its context
letters. -/
def metaStep (w : List Char) (i : Nat) : List Char × Nat :=
  if isUpperAZ (w.getD i NUL) then
    metaSwitch (w.getD i NUL) (prevLetter w i) (w.getD (i + 1) NUL)
      (w.getD (i + 2) NUL) (lookBack3 w i)
  else ([], 0)

/-- The cursor position after the iteration at i: the trailing w_idx++ plus
the extra increments of the branch taken. -/
def metaNext (w : List Char) (i : Nat) : Nat := i + 1 + (metaStep w i).2

/-- Phase 2: while (w_idx < wordLen && (maxPhonemes === 0 || result.length <
maxPhonemes)).  Structural on a fuel argument; metaphone passes the word
length, which is never exhausted before the condition fails. -/
def metaLoop (w : List Char) (maxP : Int) (maxBuf : Nat) :
    Nat → Nat → List Char → List Char
  | 0, _, acc => acc
  | fuel + 1, i, acc =>
    if i < w.length ∧ (maxP = 0 ∨ (acc.length : Int) < maxP) then
      metaLoop w maxP maxBuf fuel (metaNext w i)
        (phonizeList maxBuf acc (metaStep w i).1)
    else acc

/-- The metaphone function (export default function metaphone). -/
def metaphone (word : List Char) (maxPhonemes : Int) : List Char :=
  let wordLen := word.length
  let w := word.map toUpperChar
  let maxBuf := if 0 < maxPhonemes then maxPhonemes.toNat else wordLen
  let s := w.findIdx isUpperAZ
  if wordLen ≤ s then []
  else
    metaLoop w maxPhonemes maxBuf wordLen (metaFirst w s).2
      (phonizeList maxBuf [] (metaFirst w s).1)

/-- The result accumulated by the end of phase 1 (the first-letter special
cases), before the phase-2 while loop runs. -/
def metaphonePhase1 (word : List Char) (maxPhonemes : Int) : List Char :=
  let wordLen := word.length
  let w := word.map toUpperChar
  let maxBuf := if 0 < maxPhonemes then maxPhonemes.toNat else wordLen
  let s := w.findIdx isUpperAZ
  if wordLen ≤ s then []
  else phonizeList maxBuf [] (metaFirst w s).1

/-- Stated from the spec, for comparison with the code: the normalized
length of the input, i.e. the number of A-Z characters after upper-casing. -/
def normalizedLength (text : List Char) : Nat :=
  ((text.map toUpperChar).filter isUpperAZ).length

/-! ### soundex.js -/

/-- The soundexTable: digit-group of a letter, none for the letters mapped
to the falsy 0 (A, E, H, I, O, U, W, Y). -/
def sTable (c : Char) : Option Char :=
  if c = 'B' ∨ c = 'F' ∨ c = 'P' ∨ c = 'V' then some '1'
  else if c = 'C' ∨ c = 'G' ∨ c = 'J' ∨ c = 'K' ∨ c = 'Q' ∨ c = 'S' ∨
          c = 'X' ∨ c = 'Z' then some '2'
  else if c = 'D' ∨ c = 'T' then some '3'
  else if c = 'L' then some '4'
  else if c = 'M' ∨ c = 'N' then some '5'
  else if c = 'R' then some '6'
  else none

/-- The for loop of soundex: cs is the remainder of the filtered string, acc
the code built so far (seeded with the first letter), last the lastCode
register (none models the falsy 0). -/
def soundexLoop : List Char → List Char → Option Char → List Char
  | [], acc, _ => acc
  | c :: rest, acc, last =>
    if acc.length < 4 then
      match sTable c with
      | some d =>
        if some d ≠ last then soundexLoop rest (acc ++ [d]) (some d)
        else soundexLoop rest acc last
      | none => soundexLoop rest acc last
    else acc

/-- The soundex function (export default function soundex). -/
def soundex (str : List Char) : List Char :=
  match (str.map toUpperChar).filter isUpperAZ with
  | [] => []
  | c :: rest =>
    let code := soundexLoop rest [c] (sTable c)
    code ++ List.replicate (4 - code.length) '0'

/-! ### Helper lemmas -/

theorem phonize_length_le (b : Nat) (acc : List Char) (c : Char)
    (h : acc.length ≤ b) : (phonize b acc c).length ≤ b := by
  unfold phonize
  split
  · simp only [List.length_append, List.length_singleton]
    omega
  · exact h

theorem phonize_length_le_succ (b : Nat) (acc : List Char) (c : Char) :
    (phonize b acc c).length ≤ acc.length + 1 := by
  unfold phonize
  split
  · simp
  · omega

theorem phonizeList_length_le (b : Nat) (cs : List Char) :
    ∀ acc : List Char, acc.length ≤ b → (phonizeList b acc cs).length ≤ b := by
  induction cs with
  | nil => intro acc h; simpa [phonizeList] using h
  | cons c cs ih =>
      intro acc h
      simp only [phonizeList, List.foldl_cons]
      exact ih (phonize b acc c) (phonize_length_le b acc c h)

theorem phonizeList_length_le_add (b : Nat) (cs : List Char) :
    ∀ acc : List Char, (phonizeList b acc cs).length ≤ acc.length + cs.length := by
  induction cs with
  | nil => intro acc; simp [phonizeList]
  | cons c cs ih =>
      intro acc
      simp only [phonizeList, List.foldl_cons, List.length_cons]
      have h1 := ih (phonize b acc c)
      have h2 := phonize_length_le_succ b acc c
      simp only [phonizeList] at h1
      omega

theorem metaLoop_length_le (w : List Char) (p : Int) (b : Nat) :
    ∀ fuel i (acc : List Char), acc.length ≤ b →
      (metaLoop w p b fuel i acc).length ≤ b := by
  intro fuel
  induction fuel with
  | zero => intro i acc h; simpa [metaLoop] using h
  | succ n ih =>
      intro i acc h
      simp only [metaLoop]
      split
      · exact ih _ _ (phonizeList_length_le b _ acc h)
      · exact h

theorem metaC_snd_le (prev next afterNext : Char) :
    (metaC prev next afterNext).2 ≤ 1 := by
  unfold metaC
  repeat' split
  all_goals simp

theorem metaD_snd_le (next afterNext : Char) : (metaD next afterNext).2 ≤ 1 := by
  unfold metaD
  repeat' split
  all_goals simp

theorem metaG_snd_le (next back3 : Char) : (metaG next back3).2 ≤ 1 := by
  unfold metaG
  repeat' split
  all_goals simp

theorem metaS_snd_le (next afterNext : Char) : (metaS next afterNext).2 ≤ 1 := by
  unfold metaS
  repeat' split
  all_goals simp

theorem metaT_snd_le (next afterNext : Char) : (metaT next afterNext).2 ≤ 1 := by
  unfold metaT
  repeat' split
  all_goals simp

theorem metaSwitch_snd_le (curr prev next afterNext back3 : Char) :
    (metaSwitch curr prev next afterNext back3).2 ≤ 1 := by
  unfold metaSwitch
  by_cases h1 : curr = 'B'
  · rw [if_pos h1]; simp [metaB]
  rw [if_neg h1]
  by_cases h2 : curr = 'C'
  · rw [if_pos h2]; exact metaC_snd_le _ _ _
  rw [if_neg h2]
  by_cases h3 : curr = 'D'
  · rw [if_pos h3]; exact metaD_snd_le _ _
  rw [if_neg h3]
  by_cases h4 : curr = 'G'
  · rw [if_pos h4]; exact metaG_snd_le _ _
  rw [if_neg h4]
  by_cases h5 : curr = 'H'
  · rw [if_pos h5]; simp [metaH]
  rw [if_neg h5]
  by_cases h6 : curr = 'K'
  · rw [if_pos h6]; simp [metaK]
  rw [if_neg h6]
  by_cases h7 : curr = 'P'
  · rw [if_pos h7]; simp [metaP]
  rw [if_neg h7]
  by_cases h8 : curr = 'S'
  · rw [if_pos h8]; exact metaS_snd_le _ _
  rw [if_neg h8]
  by_cases h9 : curr = 'T'
  · rw [if_pos h9]; exact metaT_snd_le _ _
  rw [if_neg h9]
  by_cases h10 : curr = 'W'
  · rw [if_pos h10]; simp [metaW]
  rw [if_neg h10]
  by_cases h11 : curr = 'X'
  · rw [if_pos h11]; simp
  rw [if_neg h11]
  by_cases h12 : curr = 'Y'
  · rw [if_pos h12]; simp [metaY]
  rw [if_neg h12]
  by_cases h13 : curr = 'Z'
  · rw [if_pos h13]; simp
  rw [if_neg h13]
  simp [metaDefault]

theorem metaStep_snd_le (w : List Char) (i : Nat) : (metaStep w i).2 ≤ 1 := by
  unfold metaStep
  split
  · exact metaSwitch_snd_le _ _ _ _ _
  · simp

theorem metaFirst_fst_length_le (w : List Char) (s : Nat) :
    (metaFirst w s).1.length ≤ 1 := by
  unfold metaFirst
  dsimp only
  repeat' split
  all_goals simp

theorem metaLoop_neg (w : List Char) (p : Int) (b : Nat) (hp : p < 0) :
    ∀ fuel i (acc : List Char), metaLoop w p b fuel i acc = acc := by
  intro fuel i acc
  cases fuel with
  | zero => rfl
  | succ n =>
      simp only [metaLoop]
      rw [if_neg]
      rintro ⟨-, h | h⟩
      · omega
      · omega

theorem metaLoop_fuel_succ (w : List Char) (p : Int) (b : Nat) :
    ∀ fuel i (acc : List Char), w.length - i ≤ fuel →
      metaLoop w p b (fuel + 1) i acc = metaLoop w p b fuel i acc := by
  intro fuel
  induction fuel with
  | zero =>
      intro i acc h
      simp only [metaLoop]
      rw [if_neg]
      rintro ⟨h1, -⟩
      omega
  | succ n ih =>
      intro i acc h
      by_cases hc : i < w.length ∧ (p = 0 ∨ (acc.length : Int) < p)
      · rw [show metaLoop w p b (n + 1 + 1) i acc =
          metaLoop w p b (n + 1) (metaNext w i)
            (phonizeList b acc (metaStep w i).1) from by
            simp only [metaLoop]; rw [if_pos hc]]
        rw [show metaLoop w p b (n + 1) i acc =
          metaLoop w p b n (metaNext w i)
            (phonizeList b acc (metaStep w i).1) from by
            simp only [metaLoop]; rw [if_pos hc]]
        apply ih
        have : i + 1 ≤ metaNext w i := by unfold metaNext; omega
        omega
      · rw [show metaLoop w p b (n + 1 + 1) i acc = acc from by
          simp only [metaLoop]; rw [if_neg hc]]
        rw [show metaLoop w p b (n + 1) i acc = acc from by
          simp only [metaLoop]; rw [if_neg hc]]

theorem soundexLoop_stop (cs : List Char) (acc : List Char) (last : Option Char)
    (h : ¬ acc.length < 4) : soundexLoop cs acc last = acc := by
  cases cs with
  | nil => rfl
  | cons c rest => simp only [soundexLoop]; rw [if_neg h]

theorem soundexLoop_cons_none (c : Char) (rest acc : List Char)
    (last : Option Char) (h4 : acc.length < 4) (hc : sTable c = none) :
    soundexLoop (c :: rest) acc last = soundexLoop rest acc last := by
  simp only [soundexLoop]
  rw [if_pos h4, hc]

theorem soundexLoop_cons_some (c : Char) (rest acc : List Char)
    (last : Option Char) (d : Char) (h4 : acc.length < 4)
    (hc : sTable c = some d) :
    soundexLoop (c :: rest) acc last =
      if some d ≠ last then soundexLoop rest (acc ++ [d]) (some d)
      else soundexLoop rest acc last := by
  simp only [soundexLoop]
  rw [if_pos h4, hc]

theorem soundexLoop_length_le (cs : List Char) :
    ∀ (acc : List Char) last, acc.length ≤ 4 →
      (soundexLoop cs acc last).length ≤ 4 := by
  induction cs with
  | nil => intro acc last h; simpa [soundexLoop] using h
  | cons c rest ih =>
      intro acc last h
      by_cases h4 : acc.length < 4
      · cases hc : sTable c with
        | none => rw [soundexLoop_cons_none c rest acc last h4 hc]; exact ih acc last h
        | some d =>
            rw [soundexLoop_cons_some c rest acc last d h4 hc]
            split
            · refine ih _ _ ?_
              simp only [List.length_append, List.length_singleton]
              omega
            · exact ih acc last h
      · rw [soundexLoop_stop _ _ _ h4]
        exact h

theorem soundexLoop_chain (cs : List Char) :
    ∀ (acc : List Char) (last : Option Char),
      ∃ t, soundexLoop cs acc last = acc ++ t ∧
        List.Chain' (fun a b => a ≠ b) (last.toList ++ t) := by
  induction cs with
  | nil =>
      intro acc last
      refine ⟨[], by simp [soundexLoop], ?_⟩
      cases last <;> simp
  | cons c rest ih =>
      intro acc last
      by_cases h4 : acc.length < 4
      · cases hc : sTable c with
        | none => rw [soundexLoop_cons_none c rest acc last h4 hc]; exact ih acc last
        | some d =>
            rw [soundexLoop_cons_some c rest acc last d h4 hc]
            by_cases hd : some d ≠ last
            · rw [if_pos hd]
              obtain ⟨t, ht, hch⟩ := ih (acc ++ [d]) (some d)
              refine ⟨d :: t, by simpa using ht, ?_⟩
              simp only [Option.toList_some, List.singleton_append] at hch
              cases last with
              | none => simpa using hch
              | some e =>
                  have hde : e ≠ d := by
                    intro he
                    exact hd (by rw [he])
                  simp only [Option.toList_some, List.singleton_append]
                  exact List.chain'_cons.mpr ⟨hde, hch⟩
            · rw [if_neg hd]
              exact ih acc last
      · refine ⟨[], ?_, ?_⟩
        · rw [soundexLoop_stop _ _ _ h4]
          simp
        · cases last <;> simp

/-! ### Claims -/

/-- Claim C1, counterexample: metaphone with maxPhonemes 0 can return a code
longer than the number of alphabetic characters of the input, because the
buffer cap is the raw input length; on the input A, X, space the code AKS
has length 3 while only 2 characters are alphabetic. -/
theorem metaphone_exceeds_normalized_length :
    normalizedLength ['A', 'X', ' '] = 2 ∧
    metaphone ['A', 'X', ' '] 0 = ['A', 'K', 'S'] ∧
    ¬ (metaphone ['A', 'X', ' '] 0).length ≤ normalizedLength ['A', 'X', ' '] := by
  decide

/-- Claim C1, amended: for every input text, metaphone text 0 returns a code
whose length is at most the raw length of text (the buffer cap maxBufferLen
is the full input length, counting non-alphabetic characters). -/
theorem metaphone_zero_length_le_input_length (text : List Char) :
    (metaphone text 0).length ≤ text.length := by
  unfold metaphone
  dsimp only
  rw [if_neg (lt_irrefl (0 : Int))]
  split
  · simp
  · exact metaLoop_length_le _ _ _ _ _ _
      (phonizeList_length_le _ _ _ (by simp))

/-- Claim C2, counterexample: in the CH branch of the C case the code tests
the immediately preceding character, not the letter three positions back.
On A, X, D, C, H the C at index 3 is followed by H, the letter three back
(index 0, the A) is not in the no-GH-to-F class and no R follows the H, so
the claim predicts K; the code emits the SH symbol because the immediately
preceding D is in the class. -/
theorem metaphone_CH_ignores_three_back :
    ((['A', 'X', 'D', 'C', 'H'] : List Char).getD 3 NUL = 'C' ∧
     (['A', 'X', 'D', 'C', 'H'] : List Char).getD 4 NUL = 'H' ∧
     noGhToF ((['A', 'X', 'D', 'C', 'H'] : List Char).getD 0 NUL) = false ∧
     (['A', 'X', 'D', 'C', 'H'] : List Char).getD 5 NUL ≠ 'R') ∧
    metaStep ['A', 'X', 'D', 'C', 'H'] 3 = ([SH], 1) ∧
    SH ≠ 'K' ∧
    metaphone ['A', 'X', 'D', 'C', 'H'] 0 = ['A', 'K', 'S', 'T', SH] := by
  decide

/-- Claim C2, amended: when the current letter is C, the next letter is H
and the next letter is not soft-making, the encoder emits K unless the
immediately preceding character is in the no-GH-to-F class, or emits K as
well when the letter after the H is R; otherwise it emits the SH symbol;
in every CH case it consumes the H by advancing one extra position. -/
theorem metaphone_CH_uses_prev_letter (w : List Char) (i : Nat)
    (hc : w.getD i NUL = 'C') (hn : w.getD (i + 1) NUL = 'H')
    (hs : makeSoft (w.getD (i + 1) NUL) = false) :
    metaStep w i =
      (if ¬ noGhToF (prevLetter w i) ∨ w.getD (i + 2) NUL = 'R'
       then ['K'] else [SH], 1) := by
  unfold metaStep
  rw [hc]
  rw [if_pos (by decide : isUpperAZ 'C' = true)]
  unfold metaSwitch
  rw [if_neg (by decide : ¬ ('C' : Char) = 'B')]
  rw [if_pos (rfl : ('C' : Char) = 'C')]
  unfold metaC
  rw [hs]
  rw [if_neg (by decide : ¬ false = true)]
  rw [if_pos hn]

/-- Claim C2 witness: the amended CH rule applied at the concrete input of
the counterexample. -/
theorem metaphone_CH_uses_prev_letter_witness :
    metaStep ['A', 'X', 'D', 'C', 'H'] 3 =
      (if ¬ noGhToF (prevLetter ['A', 'X', 'D', 'C', 'H'] 3) ∨
          (['A', 'X', 'D', 'C', 'H'] : List Char).getD 5 NUL = 'R'
       then ['K'] else [SH], 1) :=
  metaphone_CH_uses_prev_letter ['A', 'X', 'D', 'C', 'H'] 3
    (by decide) (by decide) (by decide)

/-- Claim C3: soundex returns a code of length exactly 4 when the input
contains at least one A-Z letter after upper-casing and filtering, and the
empty string when it contains none. -/
theorem soundex_length_four_or_empty (str : List Char) :
    (soundex str).length =
      if (str.map toUpperChar).filter isUpperAZ = [] then 0 else 4 := by
  cases hf : (str.map toUpperChar).filter isUpperAZ with
  | nil => simp [soundex, hf]
  | cons c rest =>
      have h4 : (soundexLoop rest [c] (sTable c)).length ≤ 4 :=
        soundexLoop_length_le rest [c] (sTable c) (by simp)
      rw [show soundex str =
            soundexLoop rest [c] (sTable c) ++
              List.replicate (4 - (soundexLoop rest [c] (sTable c)).length) '0'
          from by unfold soundex; rw [hf]]
      rw [if_neg (by simp)]
      simp only [List.length_append, List.length_replicate]
      omega

/-- Claim C4: for every input text and every positive cap k, the length of
metaphone text k is at most k (phonize never appends past maxBufferLen,
even when the X rule emits two symbols). -/
theorem metaphone_length_le_maxPhonemes (text : List Char) (k : Int)
    (h : 0 < k) : ((metaphone text k).length : Int) ≤ k := by
  unfold metaphone
  dsimp only
  rw [if_pos h]
  split
  · simp
    omega
  · have hb := metaLoop_length_le (text.map toUpperChar) k k.toNat
      text.length (metaFirst (text.map toUpperChar)
        ((text.map toUpperChar).findIdx isUpperAZ)).2
      (phonizeList k.toNat [] (metaFirst (text.map toUpperChar)
        ((text.map toUpperChar).findIdx isUpperAZ)).1)
      (phonizeList_length_le _ _ _ (by simp))
    omega

/-- Claim C4 witness: the cap 1 on the input A, X, whose uncapped code AKS
would be longer. -/
theorem metaphone_length_le_maxPhonemes_witness :
    (0 : Int) < 1 ∧ ((metaphone ['A', 'X'] 1).length : Int) ≤ 1 :=
  ⟨by norm_num, metaphone_length_le_maxPhonemes ['A', 'X'] 1 (by norm_num)⟩

/-- Claim C5: in the soundex code before zero-padding, the appended digits
carry no two equal consecutive digits, and the first appended digit differs
from the digit-group of the retained first letter. -/
theorem soundex_digits_no_consecutive_dup (str : List Char) (c : Char)
    (rest : List Char)
    (h : (str.map toUpperChar).filter isUpperAZ = c :: rest) :
    ∃ t, soundexLoop rest [c] (sTable c) = c :: t ∧
      soundex str = (c :: t) ++ List.replicate (3 - t.length) '0' ∧
      List.Chain' (fun a b => a ≠ b) ((sTable c).toList ++ t) := by
  obtain ⟨t, ht, hch⟩ := soundexLoop_chain rest [c] (sTable c)
  refine ⟨t, by simpa using ht, ?_, hch⟩
  rw [show soundex str =
        soundexLoop rest [c] (sTable c) ++
          List.replicate (4 - (soundexLoop rest [c] (sTable c)).length) '0'
      from by unfold soundex; rw [h]]
  rw [ht]
  simp

/-- Claim C5 witness: the digit chain of soundex on Robert. -/
theorem soundex_digits_no_consecutive_dup_witness :
    ∃ t, soundexLoop ['O', 'B', 'E', 'R', 'T'] ['R'] (sTable 'R') = 'R' :: t ∧
      soundex ['R', 'o', 'b', 'e', 'r', 't'] =
        ('R' :: t) ++ List.replicate (3 - t.length) '0' ∧
      List.Chain' (fun a b => a ≠ b) ((sTable 'R').toList ++ t) :=
  soundex_digits_no_consecutive_dup ['R', 'o', 'b', 'e', 'r', 't'] 'R'
    ['O', 'B', 'E', 'R', 'T'] (by decide)

/-- Claim C6: each iteration of the phase-2 loop advances the cursor by at
least one position, and by at most one extra position in the
digraph-consuming branches, so the pass over the input is bounded by the
input length. -/
theorem metaphone_cursor_advances (w : List Char) (i : Nat)
    (h : i < w.length) :
    i + 1 ≤ metaNext w i ∧ metaNext w i ≤ i + 2 := by
  have hs := metaStep_snd_le w i
  unfold metaNext
  omega

/-- Claim C6 witness: the cursor advance at index 0 of a two-letter word. -/
theorem metaphone_cursor_advances_witness :
    0 < (['A', 'B'] : List Char).length ∧
    (0 + 1 ≤ metaNext ['A', 'B'] 0 ∧ metaNext ['A', 'B'] 0 ≤ 0 + 2) :=
  ⟨by decide, metaphone_cursor_advances ['A', 'B'] 0 (by decide)⟩

/-- Claim C7: metaphone on Thompson consumes the leading TH as the single
TH symbol (the code begins with the TH symbol and the step at index 0
consumes one extra position, so the H is not processed separately), and
metaphone on Knight drops the leading K by the KN leading special case
(the code begins with N). -/
theorem metaphone_thompson_knight :
    metaphone ['T', 'h', 'o', 'm', 'p', 's', 'o', 'n'] 0 =
      [TH, 'M', 'P', 'S', 'N'] ∧
    metaStep (['T', 'h', 'o', 'm', 'p', 's', 'o', 'n'].map toUpperChar) 0 =
      ([TH], 1) ∧
    metaphone ['K', 'n', 'i', 'g', 'h', 't'] 0 = ['N', 'F', 'T'] := by
  decide

/-- Claim C8: the classic soundex pairs: Robert and Rupert both encode to
R163, and the empty string and a digit-only string encode to the empty
string. -/
theorem soundex_test_vectors :
    soundex ['R', 'o', 'b', 'e', 'r', 't'] = ['R', '1', '6', '3'] ∧
    soundex ['R', 'u', 'p', 'e', 'r', 't'] = ['R', '1', '6', '3'] ∧
    soundex [] = [] ∧
    soundex ['1', '2', '3'] = [] := by
  decide

/-- Claim C9: the lastCode register is never touched by a letter without a
digit-group (vowels, H, W, Y): removing such a letter anywhere in the tail
of the filtered string leaves the whole soundex loop unchanged, so
same-group consonants separated only by such letters still collapse to a
single digit. -/
theorem soundexLoop_skips_zero_code (s1 s2 : List Char) (c : Char)
    (acc : List Char) (last : Option Char) (h : sTable c = none) :
    soundexLoop (s1 ++ c :: s2) acc last = soundexLoop (s1 ++ s2) acc last := by
  induction s1 generalizing acc last with
  | nil =>
      simp only [List.nil_append]
      by_cases h4 : acc.length < 4
      · rw [soundexLoop_cons_none c s2 acc last h4 h]
      · rw [soundexLoop_stop _ _ _ h4, soundexLoop_stop _ _ _ h4]
  | cons a s1 ih =>
      simp only [List.cons_append]
      by_cases h4 : acc.length < 4
      · cases hta : sTable a with
        | none =>
            rw [soundexLoop_cons_none a _ acc last h4 hta,
              soundexLoop_cons_none a _ acc last h4 hta]
            exact ih acc last
        | some d =>
            rw [soundexLoop_cons_some a _ acc last d h4 hta,
              soundexLoop_cons_some a _ acc last d h4 hta]
            by_cases hd : some d ≠ last
            · rw [if_pos hd, if_pos hd]
              exact ih (acc ++ [d]) (some d)
            · rw [if_neg hd, if_neg hd]
              exact ih acc last
      · rw [soundexLoop_stop _ _ _ h4, soundexLoop_stop _ _ _ h4]

/-- Claim C9 witness: the O between the two same-group B sounds of Bob is
skipped without resetting lastCode, so the second B collapses. -/
theorem soundexLoop_skips_zero_code_witness :
    sTable 'O' = none ∧
    soundexLoop ['O', 'B'] ['B'] (some '1') =
      soundexLoop ['B'] ['B'] (some '1') ∧
    soundex ['B', 'o', 'b'] = ['B', '0', '0', '0'] :=
  ⟨rfl, soundexLoop_skips_zero_code [] ['B'] 'O' ['B'] (some '1') rfl,
    by decide⟩

/-- Claim C10: for every negative cap k, the phase-2 loop body never runs
(the loop condition needs the cap to be zero or the result length to be
below the cap), so metaphone returns exactly the phase-1 output, whose
length is at most 1. -/
theorem metaphone_negative_cap_phase1_only (text : List Char) (k : Int)
    (h : k < 0) :
    metaphone text k = metaphonePhase1 text k ∧
    (metaphone text k).length ≤ 1 := by
  have hmain : metaphone text k = metaphonePhase1 text k := by
    unfold metaphone metaphonePhase1
    dsimp only
    split
    · rfl
    · exact metaLoop_neg _ _ _ h _ _ _
  refine ⟨hmain, ?_⟩
  rw [hmain]
  unfold metaphonePhase1
  dsimp only
  split
  · simp
  · have h1 := phonizeList_length_le_add
      (if 0 < k then k.toNat else text.length)
      (metaFirst (text.map toUpperChar)
        ((text.map toUpperChar).findIdx isUpperAZ)).1 []
    have h2 := metaFirst_fst_length_le (text.map toUpperChar)
      ((text.map toUpperChar).findIdx isUpperAZ)
    simp only [List.length_nil] at h1
    omega

/-- Claim C10 witness: the cap -1 on a two-letter word stops after the
phase-1 A rule. -/
theorem metaphone_negative_cap_phase1_only_witness :
    metaphone ['A', 'B'] (-1) = metaphonePhase1 ['A', 'B'] (-1) ∧
    (metaphone ['A', 'B'] (-1)).length ≤ 1 :=
  metaphone_negative_cap_phase1_only ['A', 'B'] (-1) (by norm_num)

end HelperJs
